import Mathlib

/-!
Verification development for the DoH Testlet Library
(`dohTestletLib.js`, latest revision).  The JavaScript source is shallowly
embedded: every string-manipulating helper mirrors the exact JS semantics
(`String.prototype.split(' ')`, first-occurrence `String.prototype.replace`,
`String.prototype.trim`, template literals), and the bounded-concurrency
batch executor inside `pushAction` is embedded as an explicit state machine
whose steps are the completion events of the cooperative (single-threaded)
scheduler.
-/

/-! ### JavaScript string primitives -/

/-- The whitespace characters stripped by JS `String.prototype.trim`
(restricted to the ASCII ones that can occur in captured process output). -/
def jsWhitespace (c : Char) : Bool :=
  c = ' ' || c = '\t' || c = '\n' || c = '\r' || c = '\x0b' || c = '\x0c'

/-- `trim` on the underlying character list: drop whitespace from the front,
then from the back. -/
def jsTrimList (l : List Char) : List Char :=
  ((l.dropWhile jsWhitespace).reverse.dropWhile jsWhitespace).reverse

/-- JS `String.prototype.trim`. -/
def jsTrim (s : String) : String :=
  String.mk (jsTrimList s.data)

/-- Does `pat` occur as a prefix of `l`? (substring matching helper for JS
`String.prototype.replace`). -/
def prefixMatches : List Char → List Char → Bool
  | [], _ => true
  | _ :: _, [] => false
  | p :: ps, c :: cs => p = c && prefixMatches ps cs

/-- Remove the first occurrence of the character list `pat` from `l`
(JS `String.prototype.replace(pat, '')` with a string pattern replaces only
the first occurrence, and matches substrings, not tokens). -/
def removeFirstAux (pat : List Char) : List Char → List Char
  | [] => []
  | c :: cs =>
    if prefixMatches pat (c :: cs) then (c :: cs).drop pat.length
    else c :: removeFirstAux pat cs

/-- JS `s.replace(pat, '')`. -/
def jsReplaceFirst (s pat : String) : String :=
  String.mk (removeFirstAux pat.data s.data)

/-- Newline-separated join, as the specification words it
("separated by newlines"). -/
def joinSep (sep : String) : List String → String
  | [] => ""
  | [x] => x
  | x :: y :: ys => x ++ sep ++ joinSep sep (y :: ys)

/-- The string `x0 ++ "\n" ++ x1 ++ "\n" ++ ...` produced by the
`returnStr += res[1] + '\n'` accumulation loop of `pushAction`. -/
def strConcatNl : List String → String
  | [] => ""
  | x :: xs => x ++ "\n" ++ strConcatNl xs

/-! ### cleos command-line assembly (`singlePushAction` / `getTable`) -/

/-- The fixed list of global cleos options that `singlePushAction`,
`singlePushActionAsync` and `getTable` move from `otherOpts` to the
`globalOpts` string (they must appear before the cleos subcommand). -/
def globalOptsList : List String :=
  ["--no-verify", "--no-auto-keosd", "-v", "--verbose", "--print-request",
   "--print-response", "--http-verbose", "--http-trace"]

/-- The `otherOpts.split(' ').forEach(...)` loop: returns the accumulated
`globalOpts` string and the mutated `otherOpts` remainder.  The token list
is computed from the original `otherOpts`; each matching token is appended
(with a trailing space) to `globalOpts` and its first substring occurrence
is removed from the evolving remainder. -/
def extractGlobalOpts (otherOpts : String) : String × String :=
  (otherOpts.splitOn " ").foldl
    (fun acc opt =>
      if globalOptsList.contains opt then
        (acc.1 ++ opt ++ " ", jsReplaceFirst acc.2 opt)
      else acc)
    ("", otherOpts)

/-- `let cleosUrlOpt = ''; if (cleosUrl !== '') cleosUrlOpt = "-u " + cleosUrl`. -/
def cleosUrlOptOf (cleosUrl : String) : String :=
  if cleosUrl = "" then "" else "-u " ++ cleosUrl

/-- `let cleosWalletUrlOpt = ''; if (cleosWalletUrl !== '') ... = "--wallet-url " + w`. -/
def cleosWalletUrlOptOf (cleosWalletUrl : String) : String :=
  if cleosWalletUrl = "" then "" else "--wallet-url " ++ cleosWalletUrl

/-- The command line assembled by `singlePushAction` (and by its async
variant `singlePushActionAsync`, which builds the identical string). -/
def singlePushActionCmd (actionData contractName actionName authority
    cleosUrl cleosWalletUrl otherOpts : String) : String :=
  let g := extractGlobalOpts otherOpts
  "cleos " ++ cleosUrlOptOf cleosUrl ++ " " ++ cleosWalletUrlOptOf cleosWalletUrl ++
    " " ++ g.1 ++ " push action " ++ contractName ++ " " ++ actionName ++
    " \x27" ++ actionData ++ "\x27 -p " ++ authority ++ " " ++ g.2 ++ " 2>&1"

/-- The command line assembled by `getTable`: the post-extraction remainder
of `otherOpts` is dropped (it would contain `push action`-only options). -/
def getTableCmd (contractName scopeName tableName queryOpts
    cleosUrl cleosWalletUrl otherOpts : String) : String :=
  let g := extractGlobalOpts otherOpts
  "cleos " ++ cleosUrlOptOf cleosUrl ++ " " ++ cleosWalletUrlOptOf cleosWalletUrl ++
    " " ++ g.1 ++ " get table " ++ contractName ++ " " ++ scopeName ++ " " ++
    tableName ++ " " ++ queryOpts ++ " 2>&1"

/-- `singlePushAction`, with the external process modelled as an oracle
`execOut` from command line to captured output.  Returns the value the JS
function returns together with the list of lines printed to the console
(`console.log(cleosCmd)` when `getEcho()`, `console.log(output)` when
`getEchoResult()`). -/
def singlePushActionRun (echo echoResult : Bool) (execOut : String → String)
    (actionData contractName actionName authority cleosUrl cleosWalletUrl
     otherOpts : String) : String × List String :=
  let cmd := singlePushActionCmd actionData contractName actionName authority
    cleosUrl cleosWalletUrl otherOpts
  let output := execOut cmd
  (output, (if echo then [cmd] else []) ++ (if echoResult then [output] else []))

/-- `getTable`, with the external process modelled as an oracle. -/
def getTableRun (echo echoResult : Bool) (execOut : String → String)
    (contractName scopeName tableName queryOpts cleosUrl cleosWalletUrl
     otherOpts : String) : String × List String :=
  let cmd := getTableCmd contractName scopeName tableName queryOpts cleosUrl
    cleosWalletUrl otherOpts
  let output := execOut cmd
  (output, (if echo then [cmd] else []) ++ (if echoResult then [output] else []))

/-! ### `checkRequiredVariables` -/

/-- `checkRequiredVariables(...variables)`: the environment is a partial map
from names to values (`none` = undefined).  JS `!process.env[v]` is true
exactly when the variable is undefined or the empty string.  The function
reads the environment and never writes it, which the state-passing result
makes explicit. -/
def checkRequiredVariables (env : String → Option String)
    (varNames : List String) : Except String Unit × (String → Option String) :=
  let undefinedVariables := varNames.filter (fun v => ((env v).getD "") == "")
  if undefinedVariables.length > 0 then
    (Except.error ("ERROR: dohTestletLib.js: checkRequiredVariables(" ++
        String.intercalate "," varNames ++
        "): Some required environment variables are not defined: " ++
        String.intercalate ", " undefinedVariables), env)
  else (Except.ok (), env)

/-! ### JSON data model (`JSON.parse` / `JSON.stringify`) -/

/-- A parsed JSON value (numbers restricted to integers; the batch treats
items as opaque payloads, so nothing below inspects them). -/
inductive Json where
  | null : Json
  | bool : Bool → Json
  | num : Int → Json
  | str : String → Json
  | arr : List Json → Json
  | obj : List (String × Json) → Json

/-- Escaping of one character inside a JSON string literal. -/
def jsonEscapeChar (c : Char) : String :=
  if c = '"' then "\\\""
  else if c = '\\' then "\\\\"
  else if c = '\n' then "\\n"
  else if c = '\t' then "\\t"
  else if c = '\r' then "\\r"
  else String.singleton c

mutual

/-- `JSON.stringify`. -/
def Json.stringify : Json → String
  | Json.null => "null"
  | Json.bool true => "true"
  | Json.bool false => "false"
  | Json.num i => toString i
  | Json.str s => "\"" ++ s.data.foldl (fun acc c => acc ++ jsonEscapeChar c) "" ++ "\""
  | Json.arr xs => "[" ++ Json.stringifyItems xs ++ "]"
  | Json.obj fs => "\x7b" ++ Json.stringifyFields fs ++ "\x7d"

/-- Comma-separated serialization of array items. -/
def Json.stringifyItems : List Json → String
  | [] => ""
  | [x] => Json.stringify x
  | x :: xs => Json.stringify x ++ "," ++ Json.stringifyItems xs

/-- Comma-separated serialization of object fields. -/
def Json.stringifyFields : List (String × Json) → String
  | [] => ""
  | [(k, v)] => "\"" ++ k ++ "\":" ++ Json.stringify v
  | (k, v) :: fs => "\"" ++ k ++ "\":" ++ Json.stringify v ++ "," ++ Json.stringifyFields fs

end

/-- The state of the data file named by `pushAction`'s first argument:
absent on disk, present but not parseable as JSON (`JSON.parse` throws),
or parseable to a JSON value. -/
inductive DataFile where
  | absent : DataFile
  | unparseable : String → DataFile
  | parsed : Json → DataFile

/-- The loading/validation prefix of `pushAction` (lines before the
executor): missing file → throw; `JSON.parse` failure → caught and
rethrown wrapped; non-array top level → thrown inside the `try`, caught
and rethrown wrapped. -/
def loadDataFile (dataFile : DataFile) : Except String (List Json) :=
  match dataFile with
  | DataFile.absent =>
      Except.error "ERROR: pushAction: Data file not found"
  | DataFile.unparseable raw =>
      Except.error ("ERROR: pushAction: Failed to load data file:SyntaxError: " ++ raw)
  | DataFile.parsed j =>
      match j with
      | Json.arr myArray => Except.ok myArray
      | _ => Except.error
          "ERROR: pushAction: Failed to load data file:Error: ERROR: pushAction: Invalid JSON format: DoH data file is not an array."

/-! ### The bounded-concurrency batch executor of `pushAction`

The executor is single-threaded cooperative code: every mutation of the
shared variables happens either in the synchronous prefix of an
`executeNext()` call (up to its `await`) or in the continuation that runs
when one awaited external process settles.  A machine state records the
shared variables (`currentIndex`, `activeTasks`, `results`,
`allPromisesCompleted`) plus the set of in-flight invocations and history
traces (launch order, completion order, unhandled rejections).  One
machine step = one external process settling, which runs the whole
continuation (result push on success, `finally` block, and the recursive
synchronous `executeNext()` prefix) atomically, exactly as the JS event
loop does. -/

/-- `const maxConcurrentTasks = 100`. -/
def maxConcurrentTasks : Nat := 100

/-- The shared mutable state of one `pushAction` batch, plus ghost history
fields: `inflight` holds the input indices of invocations whose `await` has
not settled, `launched` the indices in dispatch order, `completedOrder` the
indices in settle order, and `rejections` the indices whose invocation
failed (their promise rejection is never observed by the code). -/
structure BatchState where
  arrayLength : Nat
  currentIndex : Nat
  activeTasks : Nat
  allPromisesCompleted : Bool
  results : List (String × String)
  inflight : List Nat
  launched : List Nat
  completedOrder : List Nat
  rejections : List Nat
deriving DecidableEq

/-- The synchronous prefix of one `executeNext()` call: either observe an
exhausted queue (and flip the completion flag if nothing is in flight) or
consume the next item and launch its invocation. -/
def executeNext (s : BatchState) : BatchState :=
  if s.arrayLength ≤ s.currentIndex then
    if s.activeTasks = 0 then { s with allPromisesCompleted := true } else s
  else
    { s with
        activeTasks := s.activeTasks + 1
        currentIndex := s.currentIndex + 1
        inflight := s.inflight ++ [s.currentIndex]
        launched := s.launched ++ [s.currentIndex] }

/-- The state right after `let allPromisesCompleted = false; let
currentIndex = 0; let activeTasks = 0; let results = [];`. -/
def initState (myArrayLength : Nat) : BatchState :=
  { arrayLength := myArrayLength
    currentIndex := 0
    activeTasks := 0
    allPromisesCompleted := false
    results := []
    inflight := []
    launched := []
    completedOrder := []
    rejections := [] }

/-- The state after the start loop
`for (let i = 0; i < Math.min(maxConcurrentTasks, myArray.length); i++) executeNext();`. -/
def startBatch (myArrayLength : Nat) : BatchState :=
  executeNext^[Nat.min maxConcurrentTasks myArrayLength] (initState myArrayLength)

/-- One completion event for in-flight invocation `k`:
the awaited promise settles (`out k = some o`: fulfilled with captured
output `o`; `out k = none`: rejected, i.e. the external process exited
non-zero).  On fulfillment the continuation pushes `[cleosCmd, stdout]`
onto `results`; on rejection nothing is pushed and the rejection is
recorded as unhandled.  Either way the `finally` block decrements
`activeTasks` and synchronously calls `executeNext()`. -/
def completeTask (out : Nat → Option String) (cmd : Nat → String)
    (s : BatchState) (k : Nat) : BatchState :=
  let s1 := { s with
    inflight := s.inflight.erase k
    completedOrder := s.completedOrder ++ [k] }
  let s2 :=
    match out k with
    | some o => { s1 with results := s1.results ++ [(cmd k, o)] }
    | none => { s1 with rejections := s1.rejections ++ [k] }
  executeNext { s2 with activeTasks := s2.activeTasks - 1 }

/-- The states of the dispatch loop reachable while `pushAction` busy-waits
on `deasync.loopWhile(() => !allPromisesCompleted)`: the post-start-loop
state, closed under completion events of in-flight invocations (the event
loop may settle them in any order). -/
inductive Reachable (out : Nat → Option String) (cmd : Nat → String)
    (n : Nat) : BatchState → Prop where
  | init : Reachable out cmd n (startBatch n)
  | step {s : BatchState} {k : Nat} : Reachable out cmd n s → k ∈ s.inflight →
      Reachable out cmd n (completeTask out cmd s k)

/-- Run the machine under an explicit completion schedule (indices not
currently in flight are skipped; the JS event loop only settles pending
promises). -/
def runSched (out : Nat → Option String) (cmd : Nat → String) :
    BatchState → List Nat → BatchState
  | s, [] => s
  | s, k :: ks =>
      if k ∈ s.inflight then runSched out cmd (completeTask out cmd s k) ks
      else runSched out cmd s ks

/-- The result-aggregation loop at the end of `pushAction`: `returnStr`
collects `res[1]` unconditionally; `echoStr` collects `res[0]` when the
echo-command toggle is on and `res[1]` when the echo-result toggle is on;
both are trimmed.  Returns `(returnStr, echoStr)`. -/
def pushAggregate (echo echoResult : Bool)
    (results : List (String × String)) : String × String :=
  let returnStr := results.foldl (fun acc res => acc ++ res.2 ++ "\n") ""
  let echoStr := results.foldl
    (fun acc res =>
      (acc ++ (if echo then res.1 ++ "\n" else "")) ++
        (if echoResult then res.2 ++ "\n" else "")) ""
  (jsTrim returnStr, jsTrim echoStr)

/-- Whole-call model of `pushAction(dataFile, contractName, actionName,
cleosUrl, cleosWalletUrl, otherOpts)`: validate and load the data file
(throwing before any dispatch on failure), then run the executor under a
completion schedule and aggregate.  Each item `k` is serialized as
`'[' + JSON.stringify(item) + ']'` and pushed with `authority =
contractName`; `out` is the external-process oracle.  Returns
`(returnStr, echoStr, final state)`. -/
def pushActionFull (echo echoResult : Bool) (out : Nat → Option String)
    (dataFile : DataFile) (contractName actionName cleosUrl cleosWalletUrl
    otherOpts : String) (sched : List Nat) :
    Except String (String × String × BatchState) :=
  match loadDataFile dataFile with
  | Except.error e => Except.error e
  | Except.ok myArray =>
      let cmd := fun k => singlePushActionCmd
        ("[" ++ Json.stringify (myArray.getD k Json.null) ++ "]")
        contractName actionName contractName cleosUrl cleosWalletUrl otherOpts
      let final := runSched out cmd (startBatch myArray.length) sched
      let agg := pushAggregate echo echoResult final.results
      Except.ok (agg.1, agg.2, final)

/-- The dispatch trace of a `pushAction` call: no invocation is ever
launched when loading fails (the throw happens before the executor). -/
def launchedOf (r : Except String (String × String × BatchState)) : List Nat :=
  match r with
  | Except.error _ => []
  | Except.ok (_, _, s) => s.launched

/-! ### Characterization of the executor steps -/

/-- `executeNext` when unconsumed items remain: launch the next one. -/
theorem executeNext_launch {s : BatchState} (h : s.currentIndex < s.arrayLength) :
    executeNext s =
      { s with
          activeTasks := s.activeTasks + 1
          currentIndex := s.currentIndex + 1
          inflight := s.inflight ++ [s.currentIndex]
          launched := s.launched ++ [s.currentIndex] } := by
  unfold executeNext
  rw [if_neg (by omega)]

/-- `executeNext` when the queue is exhausted but invocations are still in
flight: no observable effect. -/
theorem executeNext_drain {s : BatchState} (h1 : s.arrayLength ≤ s.currentIndex)
    (h2 : s.activeTasks ≠ 0) : executeNext s = s := by
  unfold executeNext
  rw [if_pos h1, if_neg h2]

/-- `executeNext` when the queue is exhausted and nothing is in flight:
flip the completion flag. -/
theorem executeNext_finish {s : BatchState} (h1 : s.arrayLength ≤ s.currentIndex)
    (h2 : s.activeTasks = 0) :
    executeNext s = { s with allPromisesCompleted := true } := by
  unfold executeNext
  rw [if_pos h1, if_pos h2]

/-- A completion event whose invocation fulfilled with output `o`. -/
theorem completeTask_some {out : Nat → Option String} {cmd : Nat → String}
    {s : BatchState} {k : Nat} {o : String} (h : out k = some o) :
    completeTask out cmd s k = executeNext
      { s with
          inflight := s.inflight.erase k
          completedOrder := s.completedOrder ++ [k]
          results := s.results ++ [(cmd k, o)]
          activeTasks := s.activeTasks - 1 } := by
  unfold completeTask
  rw [h]

/-- A completion event whose invocation rejected (non-zero exit). -/
theorem completeTask_none {out : Nat → Option String} {cmd : Nat → String}
    {s : BatchState} {k : Nat} (h : out k = none) :
    completeTask out cmd s k = executeNext
      { s with
          inflight := s.inflight.erase k
          completedOrder := s.completedOrder ++ [k]
          rejections := s.rejections ++ [k]
          activeTasks := s.activeTasks - 1 } := by
  unfold completeTask
  rw [h]

/-- Effect of the start loop after `j ≤ n` iterations: `j` items launched,
`j` invocations in flight, flag still false. -/
theorem iterate_executeNext_initState (n : Nat) : ∀ j, j ≤ n →
    executeNext^[j] (initState n) =
      { arrayLength := n, currentIndex := j, activeTasks := j,
        allPromisesCompleted := false, results := [],
        inflight := List.range j, launched := List.range j,
        completedOrder := [], rejections := [] }
  | 0, _ => rfl
  | j + 1, h => by
      rw [Function.iterate_succ_apply',
        iterate_executeNext_initState n j (by omega)]
      rw [executeNext_launch (by show j < n; omega)]
      simp [List.range_succ]

/-- Closed form of the state after the start loop. -/
theorem startBatch_eq (n : Nat) :
    startBatch n =
      { arrayLength := n, currentIndex := Nat.min maxConcurrentTasks n,
        activeTasks := Nat.min maxConcurrentTasks n,
        allPromisesCompleted := false, results := [],
        inflight := List.range (Nat.min maxConcurrentTasks n),
        launched := List.range (Nat.min maxConcurrentTasks n),
        completedOrder := [], rejections := [] } :=
  iterate_executeNext_initState n _ (Nat.min_le_right _ _)

/-! ### The executor invariant -/

/-- The inductive invariant of the dispatch loop, relating the shared
variables to the ghost traces. -/
structure BatchInv (out : Nat → Option String) (cmd : Nat → String)
    (n : Nat) (s : BatchState) : Prop where
  size_eq : s.arrayLength = n
  idx_le : s.currentIndex ≤ n
  active_eq : s.activeTasks = s.inflight.length
  launched_eq : s.launched = List.range s.currentIndex
  part_perm : (s.completedOrder ++ s.inflight).Perm (List.range s.currentIndex)
  cap_le : s.activeTasks ≤ Nat.min maxConcurrentTasks n
  results_eq : s.results = (s.completedOrder.filter
      (fun j => (out j).isSome)).map (fun j => (cmd j, (out j).getD ""))
  rejections_eq : s.rejections = s.completedOrder.filter (fun j => (out j).isNone)
  done_imp : s.allPromisesCompleted = true → s.currentIndex = n ∧ s.inflight = []
  done_of : 1 ≤ n → s.currentIndex = n → s.inflight = [] →
      s.allPromisesCompleted = true
  live : 1 ≤ n → s.allPromisesCompleted = false → s.inflight ≠ []

/-- The invariant holds right after the start loop. -/
theorem batchInv_init (out : Nat → Option String) (cmd : Nat → String)
    (n : Nat) : BatchInv out cmd n (startBatch n) := by
  rw [startBatch_eq]
  refine ⟨rfl, Nat.min_le_right _ _, by simp, rfl, by simp, Nat.le_refl _,
    rfl, rfl, ?_, ?_, ?_⟩
  · intro h
    exact Bool.noConfusion h
  · intro hn hidx hrange
    have h1 : Nat.min maxConcurrentTasks n = n := hidx
    have h2 : List.range (Nat.min maxConcurrentTasks n) = [] := hrange
    rw [List.range_eq_nil] at h2
    omega
  · intro hn _
    show List.range (Nat.min maxConcurrentTasks n) ≠ []
    rw [ne_eq, List.range_eq_nil]
    have : 1 ≤ Nat.min maxConcurrentTasks n :=
      Nat.le_min.mpr ⟨by simp [maxConcurrentTasks], hn⟩
    omega

/-- A synchronous `executeNext()` call restores the invariant, given the
invariant-shaped facts about the state it is called on (with a strict
concurrency bound whenever items remain, since the caller has just
decremented `activeTasks`). -/
theorem batchInv_of_executeNext {out : Nat → Option String} {cmd : Nat → String}
    {n : Nat} {t : BatchState}
    (hsz : t.arrayLength = n) (hidx : t.currentIndex ≤ n)
    (hact : t.activeTasks = t.inflight.length)
    (hlau : t.launched = List.range t.currentIndex)
    (hperm : (t.completedOrder ++ t.inflight).Perm (List.range t.currentIndex))
    (hcap : t.activeTasks ≤ Nat.min maxConcurrentTasks n)
    (hcap2 : t.currentIndex < n → t.activeTasks < Nat.min maxConcurrentTasks n)
    (hres : t.results = (t.completedOrder.filter
        (fun j => (out j).isSome)).map (fun j => (cmd j, (out j).getD "")))
    (hrej : t.rejections = t.completedOrder.filter (fun j => (out j).isNone))
    (hdone : t.allPromisesCompleted = false) :
    BatchInv out cmd n (executeNext t) := by
  by_cases hlt : t.currentIndex < n
  · rw [executeNext_launch (by show t.currentIndex < t.arrayLength; omega)]
    refine ⟨hsz, by show t.currentIndex + 1 ≤ n; omega, ?_, ?_, ?_, ?_,
      hres, hrej, ?_, ?_, ?_⟩
    · show t.activeTasks + 1 = (t.inflight ++ [t.currentIndex]).length
      simp [hact]
    · show t.launched ++ [t.currentIndex] = List.range (t.currentIndex + 1)
      rw [hlau, List.range_succ]
    · show (t.completedOrder ++ (t.inflight ++ [t.currentIndex])).Perm
        (List.range (t.currentIndex + 1))
      rw [List.range_succ, ← List.append_assoc]
      exact hperm.append_right _
    · show t.activeTasks + 1 ≤ Nat.min maxConcurrentTasks n
      have := hcap2 hlt
      omega
    · intro h
      have h' : t.allPromisesCompleted = true := h
      rw [hdone] at h'
      exact Bool.noConfusion h'
    · intro _ _ hinf
      exfalso
      have : t.inflight ++ [t.currentIndex] = [] := hinf
      simp at this
    · intro _ _
      show t.inflight ++ [t.currentIndex] ≠ []
      simp
  · have hieq : t.currentIndex = n := by omega
    by_cases ha0 : t.activeTasks = 0
    · have hinf : t.inflight = [] := by
        have : t.inflight.length = 0 := by omega
        exact List.length_eq_zero.mp this
      rw [executeNext_finish (by show t.arrayLength ≤ t.currentIndex; omega) ha0]
      refine ⟨hsz, hidx, hact, hlau, hperm, hcap, hres, hrej, ?_, ?_, ?_⟩
      · intro _
        exact ⟨hieq, hinf⟩
      · intro _ _ _
        rfl
      · intro _ h
        exact Bool.noConfusion h
    · rw [executeNext_drain (by show t.arrayLength ≤ t.currentIndex; omega) ha0]
      refine ⟨hsz, hidx, hact, hlau, hperm, hcap, hres, hrej, ?_, ?_, ?_⟩
      · intro h
        rw [hdone] at h
        exact Bool.noConfusion h
      · intro _ _ hinf
        exfalso
        have : t.inflight.length = 0 := by rw [hinf]; rfl
        omega
      · intro _ _
        intro hinf
        have : t.inflight.length = 0 := by rw [hinf]; rfl
        omega

/-- One completion event preserves the executor invariant. -/
theorem batchInv_step {out : Nat → Option String} {cmd : Nat → String} {n : Nat}
    {s : BatchState} {k : Nat} (hinv : BatchInv out cmd n s)
    (hk : k ∈ s.inflight) : BatchInv out cmd n (completeTask out cmd s k) := by
  obtain ⟨hsz, hidx, hact, hlau, hperm, hcap, hres, hrej, hd1, hd2, hlive⟩ := hinv
  have hne : s.inflight ≠ [] := by
    intro h
    rw [h] at hk
    exact List.not_mem_nil k hk
  have hdone : s.allPromisesCompleted = false := by
    cases h : s.allPromisesCompleted
    · rfl
    · have h2 := (hd1 h).2
      rw [h2] at hk
      exact absurd hk (List.not_mem_nil k)
  have hapos : 1 ≤ s.activeTasks := by
    rw [hact]
    exact List.length_pos.mpr hne
  have herase_len : (s.inflight.erase k).length = s.inflight.length - 1 :=
    List.length_erase_of_mem hk
  have hpermE : ((s.completedOrder ++ [k]) ++ s.inflight.erase k).Perm
      (List.range s.currentIndex) := by
    have h1 : (s.completedOrder ++ [k]) ++ s.inflight.erase k
        = s.completedOrder ++ (k :: s.inflight.erase k) := by
      rw [List.append_assoc]
      rfl
    rw [h1]
    exact ((List.perm_cons_erase hk).symm.append_left _).trans hperm
  have hmx : 1 ≤ maxConcurrentTasks := by decide
  cases hout : out k with
  | some o =>
      rw [completeTask_some hout]
      refine batchInv_of_executeNext hsz hidx ?_ hlau hpermE ?_ ?_ ?_ ?_ hdone
      · show s.activeTasks - 1 = (s.inflight.erase k).length
        omega
      · show s.activeTasks - 1 ≤ Nat.min maxConcurrentTasks n
        omega
      · intro hlt
        show s.activeTasks - 1 < Nat.min maxConcurrentTasks n
        have h1 : s.currentIndex < n := hlt
        omega
      · show s.results ++ [(cmd k, o)] = ((s.completedOrder ++ [k]).filter
          (fun j => (out j).isSome)).map (fun j => (cmd j, (out j).getD ""))
        rw [List.filter_append, List.map_append, hres]
        simp [hout]
      · show s.rejections = (s.completedOrder ++ [k]).filter
          (fun j => (out j).isNone)
        rw [List.filter_append, hrej]
        simp [hout]
  | none =>
      rw [completeTask_none hout]
      refine batchInv_of_executeNext hsz hidx ?_ hlau hpermE ?_ ?_ ?_ ?_ hdone
      · show s.activeTasks - 1 = (s.inflight.erase k).length
        omega
      · show s.activeTasks - 1 ≤ Nat.min maxConcurrentTasks n
        omega
      · intro hlt
        show s.activeTasks - 1 < Nat.min maxConcurrentTasks n
        have h1 : s.currentIndex < n := hlt
        omega
      · show s.results = ((s.completedOrder ++ [k]).filter
          (fun j => (out j).isSome)).map (fun j => (cmd j, (out j).getD ""))
        rw [List.filter_append, List.map_append, hres]
        simp [hout]
      · show s.rejections ++ [k] = (s.completedOrder ++ [k]).filter
          (fun j => (out j).isNone)
        rw [List.filter_append, hrej]
        simp [hout]

/-- Every reachable state of the dispatch loop satisfies the invariant. -/
theorem reachable_inv {out : Nat → Option String} {cmd : Nat → String} {n : Nat}
    {s : BatchState} (h : Reachable out cmd n s) : BatchInv out cmd n s := by
  induction h with
  | init => exact batchInv_init out cmd n
  | step _ hk ih => exact batchInv_step ih hk

/-! ### The empty batch and termination -/

/-- With an empty item array the start loop runs zero times, so the only
reachable state of the dispatch loop is the initial one. -/
theorem reachable_zero_eq {out : Nat → Option String} {cmd : Nat → String}
    {s : BatchState} (h : Reachable out cmd 0 s) : s = startBatch 0 := by
  induction h with
  | init => rfl
  | step hr hk ih =>
      exfalso
      rw [ih] at hk
      have hempty : (startBatch 0).inflight = [] := by
        rw [startBatch_eq]
        simp
      rw [hempty] at hk
      exact List.not_mem_nil _ hk

/-- `executeNext` never increases the termination measure
`remaining-in-queue + in-flight`. -/
theorem executeNext_measure (t : BatchState) :
    (executeNext t).arrayLength - (executeNext t).currentIndex
        + (executeNext t).inflight.length
      ≤ t.arrayLength - t.currentIndex + t.inflight.length := by
  by_cases h : t.arrayLength ≤ t.currentIndex
  · by_cases h2 : t.activeTasks = 0
    · rw [executeNext_finish h h2]
    · rw [executeNext_drain h h2]
  · rw [executeNext_launch (by omega)]
    show t.arrayLength - (t.currentIndex + 1)
        + (t.inflight ++ [t.currentIndex]).length ≤ _
    rw [List.length_append]
    simp only [List.length_singleton]
    omega

/-- Each completion event strictly decreases the termination measure. -/
theorem completeTask_measure_lt {out : Nat → Option String}
    {cmd : Nat → String} {s : BatchState} {k : Nat} (hk : k ∈ s.inflight) :
    (completeTask out cmd s k).arrayLength
        - (completeTask out cmd s k).currentIndex
        + (completeTask out cmd s k).inflight.length
      < s.arrayLength - s.currentIndex + s.inflight.length := by
  have hlen : (s.inflight.erase k).length = s.inflight.length - 1 :=
    List.length_erase_of_mem hk
  have hpos : 0 < s.inflight.length := List.length_pos.mpr (by
    intro hnil
    rw [hnil] at hk
    exact List.not_mem_nil k hk)
  cases hout : out k with
  | some o =>
      rw [completeTask_some hout]
      refine lt_of_le_of_lt (executeNext_measure _) ?_
      show s.arrayLength - s.currentIndex + (s.inflight.erase k).length < _
      omega
  | none =>
      rw [completeTask_none hout]
      refine lt_of_le_of_lt (executeNext_measure _) ?_
      show s.arrayLength - s.currentIndex + (s.inflight.erase k).length < _
      omega

/-- For a nonempty batch the dispatch loop can always run to completion:
some reachable state has the completion flag set (so the busy-wait in
`pushAction` terminates once the event loop has settled everything). -/
theorem exists_done_reachable {out : Nat → Option String} {cmd : Nat → String}
    {n : Nat} (hn : 1 ≤ n) :
    ∃ t, Reachable out cmd n t ∧ t.allPromisesCompleted = true := by
  suffices h : ∀ m s, Reachable out cmd n s →
      s.arrayLength - s.currentIndex + s.inflight.length ≤ m →
      ∃ t, Reachable out cmd n t ∧ t.allPromisesCompleted = true from
    h _ _ Reachable.init (Nat.le_refl _)
  intro m
  induction m with
  | zero =>
      intro s hr hm
      cases hd : s.allPromisesCompleted
      · exfalso
        have hinv := reachable_inv hr
        have hinfne := hinv.live hn hd
        have : 0 < s.inflight.length := List.length_pos.mpr hinfne
        omega
      · exact ⟨s, hr, hd⟩
  | succ m ih =>
      intro s hr hm
      cases hd : s.allPromisesCompleted
      · have hinv := reachable_inv hr
        have hinfne := hinv.live hn hd
        obtain ⟨k, hk⟩ := List.exists_mem_of_ne_nil s.inflight hinfne
        have hlt := @completeTask_measure_lt out cmd s k hk
        exact ih _ (Reachable.step hr hk) (by omega)
      · exact ⟨s, hr, hd⟩

/-! ### Aggregation string lemmas -/

/-- The `returnStr` accumulation loop concatenates every captured output
with a trailing newline each. -/
theorem foldl_returnStr (rs : List (String × String)) (acc : String) :
    rs.foldl (fun a res => a ++ res.2 ++ "\n") acc
      = acc ++ strConcatNl (rs.map Prod.snd) := by
  induction rs generalizing acc with
  | nil => rw [List.foldl_nil, List.map_nil, strConcatNl, String.append_empty]
  | cons r rs ih =>
      rw [List.foldl_cons, List.map_cons, strConcatNl, ih]
      simp [String.append_assoc]

/-- Concatenation-with-trailing-newlines is the newline-separated join
followed by one final newline (for a nonempty list). -/
theorem strConcatNl_eq_joinSep (xs : List String) (h : xs ≠ []) :
    strConcatNl xs = joinSep "\n" xs ++ "\n" := by
  induction xs with
  | nil => exact absurd rfl h
  | cons x t ih =>
      cases t with
      | nil =>
          show x ++ "\n" ++ strConcatNl [] = joinSep "\n" [x] ++ "\n"
          rw [strConcatNl, String.append_empty, joinSep]
      | cons y ys =>
          show x ++ "\n" ++ strConcatNl (y :: ys) = joinSep "\n" (x :: y :: ys) ++ "\n"
          rw [ih (by simp)]
          simp [joinSep, String.append_assoc]

/-- `trim` absorbs a trailing newline (character-list level). -/
theorem jsTrimList_append_newline (l : List Char) :
    jsTrimList (l ++ ['\n']) = jsTrimList l := by
  unfold jsTrimList
  rw [List.dropWhile_append]
  by_cases h : (l.dropWhile jsWhitespace).isEmpty
  · rw [if_pos h]
    rw [List.isEmpty_iff] at h
    rw [h]
    rfl
  · rw [if_neg h]
    rw [List.reverse_append, List.reverse_singleton]
    show (List.dropWhile jsWhitespace
      ('\n' :: (l.dropWhile jsWhitespace).reverse)).reverse = _
    rw [List.dropWhile_cons]
    rfl

/-- `trim` absorbs a trailing newline. -/
theorem jsTrim_append_newline (s : String) : jsTrim (s ++ "\n") = jsTrim s := by
  unfold jsTrim
  rw [String.data_append]
  rw [jsTrimList_append_newline]

/-- Trimming the loop's accumulated string gives exactly the trimmed
newline-separated join of the captured outputs. -/
theorem jsTrim_strConcatNl (xs : List String) :
    jsTrim (strConcatNl xs) = jsTrim (joinSep "\n" xs) := by
  cases xs with
  | nil => rfl
  | cons x t =>
      rw [strConcatNl_eq_joinSep _ (by simp), jsTrim_append_newline]

/-- The value `pushAction` returns is the trimmed concatenation of the
second components (captured outputs) of the collected results, independent
of the echo toggles. -/
theorem pushAggregate_fst (echo echoResult : Bool)
    (rs : List (String × String)) :
    (pushAggregate echo echoResult rs).1
      = jsTrim (strConcatNl (rs.map Prod.snd)) := by
  show jsTrim (rs.foldl (fun a res => a ++ res.2 ++ "\n") "") = _
  rw [foldl_returnStr, String.empty_append]

/-! ### Concrete oracles used by witnesses -/

/-- An all-success external-process oracle. -/
def outAll : Nat → Option String := fun k => some ("output" ++ toString k)

/-- A command-line trace for the witnesses. -/
def cmdAll : Nat → String := fun k => "cleos-cmd" ++ toString k

/-- An oracle whose first invocation exits non-zero and whose others
succeed with output `ok`. -/
def outFirstFails : Nat → Option String := fun k => if k = 0 then none else some "ok"

/-- A constant command-line trace. -/
def cmdConst : Nat → String := fun _ => "cleos-push-cmd"

/-- The final state of the 2-item batch under `outFirstFails` when the
failing invocation settles first. -/
def failRunFinal : BatchState :=
  completeTask outFirstFails cmdConst
    (completeTask outFirstFails cmdConst (startBatch 2) 0) 1

/-! ### Claims -/

/-- Claim C3: at every reachable state of the dispatch loop, the in-flight
counter `activeTasks` is at most `min(C, N)` with `C = 100`, and
`in-flight + completed + remaining-in-queue = N`. -/
theorem pushAction_concurrency_invariant (out : Nat → Option String)
    (cmd : Nat → String) (n : Nat) (s : BatchState)
    (h : Reachable out cmd n s) :
    s.activeTasks ≤ Nat.min 100 n ∧
      s.activeTasks + s.completedOrder.length + (n - s.currentIndex) = n := by
  have hinv := reachable_inv h
  refine ⟨hinv.cap_le, ?_⟩
  have hlen := hinv.part_perm.length_eq
  rw [List.length_append, List.length_range] at hlen
  have h1 := hinv.active_eq
  have h2 := hinv.idx_le
  omega

/-- Witness for C3 at the start state of a 2-item batch. -/
theorem pushAction_concurrency_invariant_witness :
    (startBatch 2).activeTasks ≤ Nat.min 100 2 ∧
      (startBatch 2).activeTasks + (startBatch 2).completedOrder.length +
        (2 - (startBatch 2).currentIndex) = 2 :=
  pushAction_concurrency_invariant outAll cmdAll 2 (startBatch 2) Reachable.init

/-- Claim C6: invocations are launched in strictly FIFO order of input
index — at every reachable state the dispatch trace is exactly
`[0, 1, ..., currentIndex-1]` (each item consumed exactly once, lowest
unconsumed index next), the whole range once the flag is set — while the
result collection follows completion order (`completedOrder`), not input
order. -/
theorem pushAction_fifo_dispatch (out : Nat → Option String)
    (cmd : Nat → String) (n : Nat) (s : BatchState)
    (h : Reachable out cmd n s) :
    s.launched = List.range s.currentIndex ∧ s.currentIndex ≤ n ∧
      (s.allPromisesCompleted = true → s.launched = List.range n) ∧
      s.results = (s.completedOrder.filter (fun j => (out j).isSome)).map
        (fun j => (cmd j, (out j).getD "")) := by
  have hinv := reachable_inv h
  refine ⟨hinv.launched_eq, hinv.idx_le, ?_, hinv.results_eq⟩
  intro hd
  rw [hinv.launched_eq, (hinv.done_imp hd).1]

/-- Witness for C6 after an out-of-order completion (item 1 settles before
item 0) in a 2-item batch. -/
theorem pushAction_fifo_dispatch_witness :
    (completeTask outAll cmdAll (startBatch 2) 1).launched
        = List.range (completeTask outAll cmdAll (startBatch 2) 1).currentIndex ∧
      (completeTask outAll cmdAll (startBatch 2) 1).currentIndex ≤ 2 ∧
      ((completeTask outAll cmdAll (startBatch 2) 1).allPromisesCompleted = true →
        (completeTask outAll cmdAll (startBatch 2) 1).launched = List.range 2) ∧
      (completeTask outAll cmdAll (startBatch 2) 1).results
        = ((completeTask outAll cmdAll (startBatch 2) 1).completedOrder.filter
            (fun j => (outAll j).isSome)).map
            (fun j => (cmdAll j, (outAll j).getD "")) :=
  pushAction_fifo_dispatch outAll cmdAll 2 _
    (Reachable.step Reachable.init (by decide))

/-- Claim C2 (code bug): for the empty batch no invocation is ever
launched, but the completion flag also never becomes true in any reachable
state — the `deasync.loopWhile(() => !allPromisesCompleted)` busy-wait
therefore never terminates, instead of returning the empty string. -/
theorem pushAction_empty_batch_never_done (out : Nat → Option String)
    (cmd : Nat → String) (s : BatchState) (h : Reachable out cmd 0 s) :
    s.allPromisesCompleted = false ∧ s.launched = [] ∧ s.results = [] := by
  rw [reachable_zero_eq h]
  refine ⟨rfl, ?_, rfl⟩
  rw [startBatch_eq]
  simp

/-- Witness for C2 at the (unique) reachable state of the empty batch. -/
theorem pushAction_empty_batch_never_done_witness :
    (startBatch 0).allPromisesCompleted = false ∧
      (startBatch 0).launched = [] ∧ (startBatch 0).results = [] :=
  pushAction_empty_batch_never_done outAll cmdAll (startBatch 0) Reachable.init

/-- Claim C4 counterexample: the claim as stated is false — in the empty
batch the reachable start state has the cursor past the last item
(`0 ≤ currentIndex`) and zero in-flight tasks, yet the completion flag is
not set (and never becomes set, see the C2 bug). -/
theorem pushAction_done_flag_claim_false :
    ¬ (∀ (out : Nat → Option String) (cmd : Nat → String) (n : Nat)
        (s : BatchState), Reachable out cmd n s →
        (s.allPromisesCompleted = true ↔
          n ≤ s.currentIndex ∧ s.activeTasks = 0)) := by
  intro hclaim
  have h := (hclaim outAll cmdAll 0 (startBatch 0) Reachable.init).mpr
    (by exact ⟨by decide, by decide⟩)
  exact Bool.noConfusion h

/-- Claim C4 (amended to nonempty batches, N ≥ 1): the completion flag is
set exactly when the cursor has passed the last item and the in-flight
count is zero; the batch is never flagged done with units in flight or
queued; the flag is set iff exactly N invocations have completed, and (for
success-only runs) iff exactly N results were collected. -/
theorem pushAction_done_flag_iff (out : Nat → Option String)
    (cmd : Nat → String) (n : Nat) (s : BatchState) (hn : 1 ≤ n)
    (h : Reachable out cmd n s) :
    (s.allPromisesCompleted = true ↔ s.currentIndex = n ∧ s.activeTasks = 0) ∧
    (s.allPromisesCompleted = true → s.inflight = [] ∧ s.currentIndex = n) ∧
    (s.allPromisesCompleted = true ↔ s.completedOrder.length = n) ∧
    ((∀ k, k < n → (out k).isSome = true) →
      (s.allPromisesCompleted = true ↔ s.results.length = n)) := by
  have hinv := reachable_inv h
  have hsum : s.completedOrder.length + s.inflight.length = s.currentIndex := by
    have hlen := hinv.part_perm.length_eq
    rw [List.length_append, List.length_range] at hlen
    exact hlen
  have hidx := hinv.idx_le
  have hact := hinv.active_eq
  have hdone_len : s.allPromisesCompleted = true → s.completedOrder.length = n := by
    intro hd
    obtain ⟨h1, h2⟩ := hinv.done_imp hd
    rw [h2] at hsum
    simp at hsum
    omega
  have hlen_done : s.completedOrder.length = n → s.allPromisesCompleted = true := by
    intro hlen
    have hinf0 : s.inflight.length = 0 := by omega
    exact hinv.done_of hn (by omega) (List.length_eq_zero.mp hinf0)
  refine ⟨⟨?_, ?_⟩, fun hd => ⟨(hinv.done_imp hd).2, (hinv.done_imp hd).1⟩,
    ⟨hdone_len, hlen_done⟩, ?_⟩
  · intro hd
    obtain ⟨h1, h2⟩ := hinv.done_imp hd
    refine ⟨h1, ?_⟩
    rw [hact, h2]
    rfl
  · rintro ⟨h1, h2⟩
    rw [hact] at h2
    exact hinv.done_of hn h1 (List.length_eq_zero.mp h2)
  · intro hall
    have hfilter : s.completedOrder.filter (fun j => (out j).isSome)
        = s.completedOrder := by
      apply List.filter_eq_self.mpr
      intro a ha
      apply hall
      have hmem : a ∈ List.range s.currentIndex :=
        hinv.part_perm.mem_iff.mp (by simp [ha])
      have := List.mem_range.mp hmem
      omega
    constructor
    · intro hd
      rw [hinv.results_eq, List.length_map, hfilter]
      exact hdone_len hd
    · intro hlen
      rw [hinv.results_eq, List.length_map, hfilter] at hlen
      exact hlen_done hlen

/-- Witness for the amended C4 at the final state of a 1-item batch. -/
theorem pushAction_done_flag_iff_witness :
    ((completeTask outAll cmdAll (startBatch 1) 0).allPromisesCompleted = true ↔
      (completeTask outAll cmdAll (startBatch 1) 0).currentIndex = 1 ∧
      (completeTask outAll cmdAll (startBatch 1) 0).activeTasks = 0) ∧
    ((completeTask outAll cmdAll (startBatch 1) 0).allPromisesCompleted = true →
      (completeTask outAll cmdAll (startBatch 1) 0).inflight = [] ∧
      (completeTask outAll cmdAll (startBatch 1) 0).currentIndex = 1) ∧
    ((completeTask outAll cmdAll (startBatch 1) 0).allPromisesCompleted = true ↔
      (completeTask outAll cmdAll (startBatch 1) 0).completedOrder.length = 1) ∧
    ((∀ k, k < 1 → (outAll k).isSome = true) →
      ((completeTask outAll cmdAll (startBatch 1) 0).allPromisesCompleted = true ↔
        (completeTask outAll cmdAll (startBatch 1) 0).results.length = 1)) :=
  pushAction_done_flag_iff outAll cmdAll 1 _ (Nat.le_refl 1)
    (Reachable.step Reachable.init (by decide))

/-- Claim C5 counterexample: for the empty batch (vacuously a batch where
all Invokers succeed) the completion flag is true in no reachable state,
so `pushAction` never gets past its busy-wait and never returns any
string. -/
theorem pushAction_success_claim_fails_at_zero :
    ¬ ∃ s, Reachable outAll cmdAll 0 s ∧ s.allPromisesCompleted = true := by
  rintro ⟨s, hr, hd⟩
  rw [reachable_zero_eq hr] at hd
  exact Bool.noConfusion hd

/-- Claim C5 (amended to nonempty batches, N ≥ 1): when every invocation
succeeds, a completed state is reachable, and at any completed state the
value `pushAction` returns is the trimmed newline-separated join of the
captured outputs in completion order; the echoed command strings (first
components) are not part of the returned value. -/
theorem pushAction_success_aggregation (echo echoResult : Bool)
    (out : Nat → Option String) (cmd : Nat → String) (n : Nat) (hn : 1 ≤ n)
    (hsucc : ∀ k, k < n → (out k).isSome = true) :
    (∃ t, Reachable out cmd n t ∧ t.allPromisesCompleted = true) ∧
    (∀ s, Reachable out cmd n s → s.allPromisesCompleted = true →
      s.completedOrder.Perm (List.range n) ∧
      s.results = s.completedOrder.map (fun k => (cmd k, (out k).getD "")) ∧
      (pushAggregate echo echoResult s.results).1
        = jsTrim (joinSep "\n"
            (s.completedOrder.map (fun k => (out k).getD "")))) := by
  refine ⟨exists_done_reachable hn, ?_⟩
  intro s hr hd
  have hinv := reachable_inv hr
  obtain ⟨hi, hinf⟩ := hinv.done_imp hd
  have hperm : s.completedOrder.Perm (List.range n) := by
    have hp := hinv.part_perm
    rw [hinf, List.append_nil, hi] at hp
    exact hp
  have hfilter : s.completedOrder.filter (fun j => (out j).isSome)
      = s.completedOrder := by
    apply List.filter_eq_self.mpr
    intro a ha
    exact hsucc a (List.mem_range.mp (hperm.mem_iff.mp ha))
  refine ⟨hperm, ?_, ?_⟩
  · rw [hinv.results_eq, hfilter]
  · rw [pushAggregate_fst, hinv.results_eq, hfilter, List.map_map,
      jsTrim_strConcatNl]
    rfl

/-- Witness for the amended C5 on a 1-item batch. -/
theorem pushAction_success_aggregation_witness :
    (∃ t, Reachable outAll cmdAll 1 t ∧ t.allPromisesCompleted = true) ∧
    (∀ s, Reachable outAll cmdAll 1 s → s.allPromisesCompleted = true →
      s.completedOrder.Perm (List.range 1) ∧
      s.results = s.completedOrder.map (fun k => (cmdAll k, (outAll k).getD "")) ∧
      (pushAggregate true true s.results).1
        = jsTrim (joinSep "\n"
            (s.completedOrder.map (fun k => (outAll k).getD "")))) :=
  pushAction_success_aggregation true true outAll cmdAll 1 (Nat.le_refl 1)
    (fun _ _ => rfl)

/-- Claim C1 (code bug): a 2-item batch whose first invocation exits
non-zero still runs to a flagged-complete state in which the rejection was
never observed (`rejections = [0]` is unhandled), the second item's result
was collected, and the aggregation returns `"ok"` — i.e. `pushAction`
returns partial results instead of failing with the external process
error. -/
theorem pushAction_failure_still_returns :
    Reachable outFirstFails cmdConst 2 failRunFinal ∧
    failRunFinal.allPromisesCompleted = true ∧
    failRunFinal.rejections = [0] ∧
    failRunFinal.results = [(cmdConst 1, "ok")] ∧
    (pushAggregate true true failRunFinal.results).1 = "ok" := by
  refine ⟨Reachable.step (Reachable.step Reachable.init (by decide)) (by decide),
    by decide, by decide, by decide, by decide⟩

/-- Claim C7: if the data file is absent, unparseable, or parses to a
non-array top-level value, `pushAction` raises an error and the executor
never starts: the dispatch trace is empty under every schedule. -/
theorem pushAction_bad_input_never_dispatches (echo echoResult : Bool)
    (out : Nat → Option String) (dataFile : DataFile)
    (contractName actionName cleosUrl cleosWalletUrl otherOpts : String)
    (sched : List Nat)
    (hbad : dataFile = DataFile.absent ∨
      (∃ raw, dataFile = DataFile.unparseable raw) ∨
      (∃ j, dataFile = DataFile.parsed j ∧ ∀ xs, j ≠ Json.arr xs)) :
    (∃ msg, pushActionFull echo echoResult out dataFile contractName actionName
        cleosUrl cleosWalletUrl otherOpts sched = Except.error msg) ∧
    launchedOf (pushActionFull echo echoResult out dataFile contractName
        actionName cleosUrl cleosWalletUrl otherOpts sched) = [] := by
  obtain hb | ⟨raw, hb⟩ | ⟨j, hb, hj⟩ := hbad
  · subst hb
    exact ⟨⟨_, rfl⟩, rfl⟩
  · subst hb
    exact ⟨⟨_, rfl⟩, rfl⟩
  · subst hb
    cases j with
    | arr xs => exact absurd rfl (hj xs)
    | null => exact ⟨⟨_, rfl⟩, rfl⟩
    | bool b => exact ⟨⟨_, rfl⟩, rfl⟩
    | num i => exact ⟨⟨_, rfl⟩, rfl⟩
    | str str => exact ⟨⟨_, rfl⟩, rfl⟩
    | obj fs => exact ⟨⟨_, rfl⟩, rfl⟩

/-- Witness for C7 on an absent data file. -/
theorem pushAction_bad_input_never_dispatches_witness :
    (∃ msg, pushActionFull true true outAll DataFile.absent "hegemon.hx"
        "clear" "" "" "" [0, 1] = Except.error msg) ∧
    launchedOf (pushActionFull true true outAll DataFile.absent "hegemon.hx"
        "clear" "" "" "" [0, 1]) = [] :=
  pushAction_bad_input_never_dispatches true true outAll DataFile.absent
    "hegemon.hx" "clear" "" "" "" [0, 1] (Or.inl rfl)

/-- Claim C8: the values returned by `pushAction`, `singlePushAction` and
`getTable` do not depend on the echo-command / echo-result toggles; for
identical inputs and identical external outputs, any two toggle settings
produce the same returned string (the toggles only change what is printed
to the console). -/
theorem echo_toggles_independence (echo1 echoResult1 echo2 echoResult2 : Bool)
    (execOut : String → String) (out : Nat → Option String)
    (dataFile : DataFile)
    (actionData contractName actionName authority scopeName tableName
      queryOpts cleosUrl cleosWalletUrl otherOpts : String)
    (sched : List Nat) (results : List (String × String)) :
    (singlePushActionRun echo1 echoResult1 execOut actionData contractName
        actionName authority cleosUrl cleosWalletUrl otherOpts).1
      = (singlePushActionRun echo2 echoResult2 execOut actionData contractName
        actionName authority cleosUrl cleosWalletUrl otherOpts).1 ∧
    (getTableRun echo1 echoResult1 execOut contractName scopeName tableName
        queryOpts cleosUrl cleosWalletUrl otherOpts).1
      = (getTableRun echo2 echoResult2 execOut contractName scopeName tableName
        queryOpts cleosUrl cleosWalletUrl otherOpts).1 ∧
    (pushAggregate echo1 echoResult1 results).1
      = (pushAggregate echo2 echoResult2 results).1 ∧
    Except.map (fun r => r.1) (pushActionFull echo1 echoResult1 out dataFile
        contractName actionName cleosUrl cleosWalletUrl otherOpts sched)
      = Except.map (fun r => r.1) (pushActionFull echo2 echoResult2 out dataFile
        contractName actionName cleosUrl cleosWalletUrl otherOpts sched) := by
  refine ⟨rfl, rfl, ?_, ?_⟩
  · rw [pushAggregate_fst, pushAggregate_fst]
  · show Except.map _ (pushActionFull echo1 echoResult1 out dataFile
      contractName actionName cleosUrl cleosWalletUrl otherOpts sched) = _
    unfold pushActionFull
    cases loadDataFile dataFile with
    | error e => rfl
    | ok myArray =>
        show Except.ok (pushAggregate echo1 echoResult1 _).1
          = Except.ok (pushAggregate echo2 echoResult2 _).1
        rw [pushAggregate_fst, pushAggregate_fst]

/-- The JS falsiness test `!process.env[v]` coincides with
"undefined or empty string". -/
theorem envFalsy_iff (env : String → Option String) (v : String) :
    ((((env v).getD "") == "") = true) ↔ (env v = none ∨ env v = some "") := by
  cases henv : env v with
  | none => simp
  | some s => simp [Option.getD]

/-- The two filter predicates (code-side falsiness, spec-side
"undefined or empty") select the same variables. -/
theorem undefinedVariables_eq (env : String → Option String)
    (varNames : List String) :
    varNames.filter (fun v => ((env v).getD "") == "")
      = varNames.filter (fun v => decide (env v = none ∨ env v = some "")) := by
  apply List.filter_congr
  intro v _
  rw [Bool.eq_iff_iff, envFalsy_iff, decide_eq_true_eq]

/-- Claim C9: `checkRequiredVariables` errors iff at least one named
variable is undefined or empty; the error message names exactly the
offending variables; otherwise it returns normally; and the environment is
left unchanged either way. -/
theorem checkRequiredVariables_spec (env : String → Option String)
    (varNames : List String) :
    ((∃ m, (checkRequiredVariables env varNames).1 = Except.error m) ↔
      ∃ v ∈ varNames, env v = none ∨ env v = some "") ∧
    (∀ m, (checkRequiredVariables env varNames).1 = Except.error m →
      m = "ERROR: dohTestletLib.js: checkRequiredVariables(" ++
        String.intercalate "," varNames ++
        "): Some required environment variables are not defined: " ++
        String.intercalate ", " (varNames.filter
          (fun v => decide (env v = none ∨ env v = some "")))) ∧
    ((checkRequiredVariables env varNames).1 = Except.ok () ↔
      ∀ v ∈ varNames, ¬(env v = none ∨ env v = some "")) ∧
    (checkRequiredVariables env varNames).2 = env := by
  simp only [checkRequiredVariables]
  by_cases hu : (varNames.filter (fun v => ((env v).getD "") == "")).length > 0
  · rw [if_pos hu]
    have hne : varNames.filter (fun v => ((env v).getD "") == "") ≠ [] := by
      intro hnil
      rw [hnil] at hu
      exact absurd hu (by simp)
    obtain ⟨w, hw⟩ := List.exists_mem_of_ne_nil _ hne
    have hwmem := List.mem_filter.mp hw
    refine ⟨⟨fun _ => ⟨w, hwmem.1, (envFalsy_iff env w).mp hwmem.2⟩, ?_⟩, ?_, ?_, rfl⟩
    · intro _
      exact ⟨_, rfl⟩
    · intro m hm
      have := Except.error.inj hm
      rw [← this, undefinedVariables_eq]
    · constructor
      · intro hok
        exact absurd hok (by simp)
      · intro hall
        exact absurd ((envFalsy_iff env w).mp hwmem.2) (hall w hwmem.1)
  · rw [if_neg hu]
    have hnil : varNames.filter (fun v => ((env v).getD "") == "") = [] := by
      have : (varNames.filter (fun v => ((env v).getD "") == "")).length = 0 := by
        omega
      exact List.length_eq_zero.mp this
    refine ⟨⟨?_, ?_⟩, ?_, ⟨fun _ => ?_, fun _ => rfl⟩, rfl⟩
    · rintro ⟨m, hm⟩
      exact absurd hm (by simp)
    · rintro ⟨v, hv, hfalsy⟩
      exfalso
      have : v ∈ varNames.filter (fun v => ((env v).getD "") == "") :=
        List.mem_filter.mpr ⟨hv, (envFalsy_iff env v).mpr hfalsy⟩
      rw [hnil] at this
      exact List.not_mem_nil v this
    · intro m hm
      exact absurd hm (by simp)
    · intro v hv hfalsy
      have : v ∈ varNames.filter (fun v => ((env v).getD "") == "") :=
        List.mem_filter.mpr ⟨hv, (envFalsy_iff env v).mpr hfalsy⟩
      rw [hnil] at this
      exact List.not_mem_nil v this

/-- Space-suffixed concatenation, the shape of the accumulated
`globalOpts` string (`globalOpts += opt + ' '`). -/
def strConcatSp : List String → String
  | [] => ""
  | x :: xs => x ++ " " ++ strConcatSp xs

/-- The `globalOpts` accumulator of the extraction loop depends only on
which tokens of the original `otherOpts` belong to the fixed global-options
list: it is exactly their space-suffixed concatenation, in token order. -/
theorem extractGlobalOpts_fold_fst (toks : List String) (g r : String) :
    (toks.foldl
      (fun acc opt =>
        if globalOptsList.contains opt then
          (acc.1 ++ opt ++ " ", jsReplaceFirst acc.2 opt)
        else acc) (g, r)).1
      = g ++ strConcatSp (toks.filter (fun opt => globalOptsList.contains opt)) := by
  induction toks generalizing g r with
  | nil => rw [List.foldl_nil, List.filter_nil, strConcatSp, String.append_empty]
  | cons t ts ih =>
      by_cases ht : globalOptsList.contains t
      · rw [List.foldl_cons, List.filter_cons, if_pos ht]
        simp only [ht, if_true]
        rw [ih, strConcatSp]
        simp [String.append_assoc]
      · rw [List.foldl_cons, List.filter_cons, if_neg ht]
        rw [ih, if_neg ht]

/-- Closed form of the collected global options. -/
theorem extractGlobalOpts_fst (otherOpts : String) :
    (extractGlobalOpts otherOpts).1
      = strConcatSp ((otherOpts.splitOn " ").filter
          (fun opt => globalOptsList.contains opt)) := by
  show ((otherOpts.splitOn " ").foldl _ ("", otherOpts)).1 = _
  rw [extractGlobalOpts_fold_fst, String.empty_append]

/-- The `get table` command line as a function of the filtered global
tokens only (the non-global remainder of `otherOpts` does not occur). -/
theorem getTableCmd_eq_template (contractName scopeName tableName queryOpts
    cleosUrl cleosWalletUrl otherOpts : String) :
    getTableCmd contractName scopeName tableName queryOpts cleosUrl
        cleosWalletUrl otherOpts
      = "cleos " ++ cleosUrlOptOf cleosUrl ++ " " ++
        cleosWalletUrlOptOf cleosWalletUrl ++ " " ++
        strConcatSp ((otherOpts.splitOn " ").filter
          (fun opt => globalOptsList.contains opt)) ++
        " get table " ++ contractName ++ " " ++ scopeName ++ " " ++
        tableName ++ " " ++ queryOpts ++ " 2>&1" := by
  show "cleos " ++ cleosUrlOptOf cleosUrl ++ " " ++
      cleosWalletUrlOptOf cleosWalletUrl ++ " " ++
      (extractGlobalOpts otherOpts).1 ++ " get table " ++ contractName ++
      " " ++ scopeName ++ " " ++ tableName ++ " " ++ queryOpts ++ " 2>&1" = _
  rw [extractGlobalOpts_fst]

/-- Claim C10: the `get table` command line contains, from `otherOpts`,
only the tokens in the fixed global-options list (space-concatenated,
placed before the subcommand); it is insensitive to every other token of
`otherOpts`; whereas the `push action` command line additionally carries
the post-extraction remainder of `otherOpts` after the subcommand
arguments. -/
theorem cleos_option_partition (actionData contractName actionName authority
    scopeName tableName queryOpts cleosUrl cleosWalletUrl otherOpts : String) :
    (extractGlobalOpts otherOpts).1
      = strConcatSp ((otherOpts.splitOn " ").filter
          (fun opt => globalOptsList.contains opt)) ∧
    getTableCmd contractName scopeName tableName queryOpts cleosUrl
        cleosWalletUrl otherOpts
      = "cleos " ++ cleosUrlOptOf cleosUrl ++ " " ++
        cleosWalletUrlOptOf cleosWalletUrl ++ " " ++
        strConcatSp ((otherOpts.splitOn " ").filter
          (fun opt => globalOptsList.contains opt)) ++
        " get table " ++ contractName ++ " " ++ scopeName ++ " " ++
        tableName ++ " " ++ queryOpts ++ " 2>&1" ∧
    (∀ otherOpts2,
      (otherOpts.splitOn " ").filter (fun opt => globalOptsList.contains opt)
        = (otherOpts2.splitOn " ").filter (fun opt => globalOptsList.contains opt) →
      getTableCmd contractName scopeName tableName queryOpts cleosUrl
          cleosWalletUrl otherOpts
        = getTableCmd contractName scopeName tableName queryOpts cleosUrl
          cleosWalletUrl otherOpts2) ∧
    singlePushActionCmd actionData contractName actionName authority cleosUrl
        cleosWalletUrl otherOpts
      = "cleos " ++ cleosUrlOptOf cleosUrl ++ " " ++
        cleosWalletUrlOptOf cleosWalletUrl ++ " " ++
        (extractGlobalOpts otherOpts).1 ++ " push action " ++ contractName ++
        " " ++ actionName ++ " \x27" ++ actionData ++ "\x27 -p " ++
        authority ++ " " ++ (extractGlobalOpts otherOpts).2 ++ " 2>&1" := by
  refine ⟨extractGlobalOpts_fst otherOpts,
    getTableCmd_eq_template contractName scopeName tableName queryOpts
      cleosUrl cleosWalletUrl otherOpts, ?_, rfl⟩
  intro otherOpts2 h2
  rw [getTableCmd_eq_template, getTableCmd_eq_template, h2]
